import Mathlib

/-!
Shallow embedding of the Moku backend supervisor (src/src-tauri/src/lib.rs).

Text is modelled as a list of characters.  The Rust string operations the
code relies on (str::lines, str::trim_start, str::starts_with, String::push,
format!) are reproduced faithfully:

* Rust str::lines splits on a line feed, treats a final line ending as
  optional, and strips one carriage return only when it directly precedes a
  line feed.  We model it as splitting on the newline character
  (splitOnNl), then dropping an empty final segment and stripping one
  trailing carriage return from every non-final segment (linesOf).
* Rust char::is_whitespace is the Unicode White_Space property (isRustWs).

Stateful parts (the mutex-guarded child handle, the configuration file, the
OS spawn/kill/filesystem calls) are modelled by explicit state passing: the
handle is an optional process id, the configuration file an optional
content, and each fallible OS interaction an explicit environment value
recording its outcome.
-/

/-- Text as a list of characters (the contents of a Rust String). -/
abbrev Str := List Char

/-- Convenience: the character list of a Lean string literal. -/
def str (s : String) : Str := s.data

/-- Rust char::is_whitespace: the Unicode White_Space property. -/
def isRustWs (c : Char) : Bool :=
  c.toNat = 0x09 || c.toNat = 0x0A || c.toNat = 0x0B || c.toNat = 0x0C ||
  c.toNat = 0x0D || c.toNat = 0x20 || c.toNat = 0x85 || c.toNat = 0xA0 ||
  c.toNat = 0x1680 || (0x2000 ≤ c.toNat && c.toNat ≤ 0x200A) ||
  c.toNat = 0x2028 || c.toNat = 0x2029 || c.toNat = 0x202F ||
  c.toNat = 0x205F || c.toNat = 0x3000

/-- Rust str::trim_start: drop leading whitespace. -/
def trimStart (s : Str) : Str := s.dropWhile isRustWs

/-- Rust str::trim_end: drop trailing whitespace. -/
def trimEnd (s : Str) : Str := (s.reverse.dropWhile isRustWs).reverse

/-- Rust str::trim: drop leading and trailing whitespace. -/
def trimRust (s : Str) : Str := trimEnd (trimStart s)

/-- Rust str::starts_with: startsWithL s pat is true when pat is a prefix
of s. -/
def startsWithL : Str → Str → Bool
  | _, [] => true
  | [], _ :: _ => false
  | c :: s, k :: ks => (c = k) && startsWithL s ks

/-- Split a text at every newline character; always returns at least one
(possibly empty) segment, and no segment contains a newline. -/
def splitOnNl : Str → List Str
  | [] => [[]]
  | c :: cs =>
    if c = '\n' then [] :: splitOnNl cs
    else
      match splitOnNl cs with
      | [] => [[c]]
      | s :: rest => (c :: s) :: rest

/-- Strip one trailing carriage return, as Rust str::lines does to a
segment that was terminated by a line feed. -/
def stripCr (s : Str) : Str :=
  if s.getLast? = some '\r' then s.dropLast else s

/-- Turn the newline-split segments into Rust lines: every non-final
segment gets one trailing carriage return stripped, and an empty final
segment (the optional final line ending) is dropped. -/
def linesOf : List Str → List Str
  | [] => []
  | [s] => if s = [] then [] else [s]
  | s :: rest => stripCr s :: linesOf rest

/-- Rust str::lines on a text. -/
def linesR (t : Str) : List Str := linesOf (splitOnNl t)

/-- Rust slice join with a newline separator (Vec of lines joined by a
single newline, no trailing newline). -/
def joinNl : List Str → Str
  | [] => []
  | [l] => l
  | l :: ls => l ++ '\n' :: joinNl ls

/-- The predicate patch_conf_key uses to find the line for a key: the
line, tolerant of leading whitespace, starts with the key. -/
def lineMatches (key l : Str) : Bool := startsWithL (trimStart l) key

/-- The replacement line patch_conf_key writes for a key and value. -/
def replLine (key value : Str) : Str := key ++ str " = " ++ value

/-- Rust fn patch_conf_key (src/src-tauri/src/lib.rs:156): replace the
first line that (after trimming leading whitespace) starts with the key by
the line key = value, rebuilding the text by joining all lines with a
newline; when no line matches, first ensure the text ends with a newline,
then append the replacement line followed by a newline. -/
def patch_conf_key (text key value : Str) : Str :=
  let replacement := replLine key value
  match (linesR text).findIdx? (fun l => lineMatches key l) with
  | some pos => joinNl ((linesR text).set pos replacement)
  | none =>
      let t := if text.getLast? = some '\n' then text else text ++ ['\n']
      t ++ replacement ++ ['\n']

/-- Rust const DEFAULT_SERVER_CONF (src/src-tauri/src/lib.rs:100): the
default server.conf seeded on first launch. -/
def DEFAULT_SERVER_CONF : Str := str
  "server.ip = \"127.0.0.1\"\nserver.port = 4567\nserver.webUIEnabled = false\nserver.initialOpenInBrowserEnabled = false\nserver.systemTrayEnabled = false\nserver.webUIInterface = \"browser\"\nserver.webUIFlavor = \"WebUI\"\nserver.webUIChannel = \"stable\"\nserver.electronPath = \"\"\nserver.debugLogsEnabled = false\nserver.downloadAsCbz = true\nserver.autoDownloadNewChapters = false\nserver.globalUpdateInterval = 12\nserver.maxSourcesInParallel = 6\nserver.extensionRepos = []\n"

/-- The three safety-critical keys forced by the seeder. -/
def keyWebUI : Str := str "server.webUIEnabled"

/-- Second safety key. -/
def keyOpenInBrowser : Str := str "server.initialOpenInBrowserEnabled"

/-- Third safety key. -/
def keySystemTray : Str := str "server.systemTrayEnabled"

/-- Outcomes of the filesystem calls seed_server_conf makes; each field
records whether the corresponding fallible call succeeds. -/
structure SeedFs where
  createDirOk : Bool
  writeOk : Bool
  readOk : Bool

/-- Rust fn seed_server_conf (src/src-tauri/src/lib.rs:120), as a
transformer of the configuration file content (none = the file does not
exist).  When the file is absent: create the directory tree (on failure
only a warning is printed and nothing is written) and write the default
template (a write failure is likewise only a warning).  When the file is
present: read it (a read failure returns silently), patch the three
safety keys to false, and write the result back (the result of the write
is discarded; a failed write leaves the prior content). -/
def seed_server_conf (fs : SeedFs) (conf : Option Str) : Option Str :=
  match conf with
  | none =>
      if !fs.createDirOk then none
      else if !fs.writeOk then none
      else some DEFAULT_SERVER_CONF
  | some contents =>
      if !fs.readOk then some contents
      else if !fs.writeOk then some contents
      else some (patch_conf_key
        (patch_conf_key
          (patch_conf_key contents keyWebUI (str "false"))
          keyOpenInBrowser (str "false"))
        keySystemTray (str "false"))

/-- Decidable equality for Except values, used to evaluate concrete runs
of the fallible operations. -/
instance {α β : Type} [DecidableEq α] [DecidableEq β] :
    DecidableEq (Except α β) := fun x y =>
  match x, y with
  | .error a, .error b =>
    if h : a = b then .isTrue (by rw [h])
    else .isFalse (fun hc => h (Except.error.inj hc))
  | .error _, .ok _ => .isFalse (fun hc => Except.noConfusion hc)
  | .ok _, .error _ => .isFalse (fun hc => Except.noConfusion hc)
  | .ok a, .ok b =>
    if h : a = b then .isTrue (by rw [h])
    else .isFalse (fun hc => h (Except.ok.inj hc))

/-- The environment resolve_server_binary consults: the outcome of
app.path().resource_dir() and which files exist on disk. -/
structure AppEnv where
  resourceDir : Except Str Str
  fileExists : Str → Bool

/-- Rust sidecar candidate names (src/src-tauri/src/lib.rs:221), in
order: more specific platform names before the generic fallback. -/
def sidecarCandidates : List Str :=
  [str "suwayomi-server-aarch64-apple-darwin",
   str "suwayomi-server-x86_64-apple-darwin",
   str "suwayomi-server"]

/-- Rust PathBuf::join of a directory and a file name. -/
def joinPath (dir name : Str) : Str := dir ++ '/' :: name

/-- Rust fn resolve_server_binary (src/src-tauri/src/lib.rs:207): a
non-empty (after trimming whitespace) override is returned verbatim with
no existence check; otherwise the first existing candidate in the
resource directory wins, and if none exists a descriptive error is
returned. -/
def resolve_server_binary (binary : Str) (env : AppEnv) : Except Str Str :=
  if !(trimRust binary).isEmpty then .ok binary
  else
    match env.resourceDir with
    | .error e => .error (str "Could not locate resource dir: " ++ e)
    | .ok dir =>
      match sidecarCandidates.find? (fun name => env.fileExists (joinPath dir name)) with
      | some name => .ok (joinPath dir name)
      | none => .error (str "Suwayomi server binary not found. Please set the path in Settings.")

/-- Outcome of the OS launch call in spawn_server: either the spawned
child (modelled by a numeric id) or the OS error description. -/
structure SpawnOs where
  spawnResult : Except Str Nat

/-- Rust fn spawn_server (src/src-tauri/src/lib.rs:239), as a transition
on the tracked handle and the configuration file.  If a child is already
tracked it returns Ok immediately.  Otherwise it seeds server.conf,
resolves the binary (an error is propagated), and launches the process:
on success the child is stored in the handle, on failure the error
description is returned and the handle is left as it was. -/
def spawn_server (binary : Str) (tracked : Option Nat) (conf : Option Str)
    (fs : SeedFs) (env : AppEnv) (os : SpawnOs) :
    Except Str Unit × Option Nat × Option Str :=
  if tracked.isSome then (.ok (), tracked, conf)
  else
    let conf' := seed_server_conf fs conf
    match resolve_server_binary binary env with
    | .error e => (.error e, tracked, conf')
    | .ok _bin =>
      match os.spawnResult with
      | .ok child => (.ok (), some child, conf')
      | .error e => (.error e, tracked, conf')

/-- Outcomes of the OS calls kill_tachidesk makes; both results are
discarded by the code (let _ = ...), so they never influence the result. -/
structure KillOs where
  childKillOk : Bool
  patternKillOk : Bool

/-- Rust fn kill_tachidesk (src/src-tauri/src/lib.rs:78): take the
tracked handle out of the state (leaving it empty), attempt to kill the
child if one was tracked (result discarded), then unconditionally run the
pattern-based kill (taskkill/pkill, result discarded).  Returns the new
handle state. -/
def kill_tachidesk (tracked : Option Nat) (os : KillOs) : Option Nat :=
  let afterTake : Option Nat :=
    match tracked with
    | some _child => none
    | none => none
  let _ := os.childKillOk
  let _ := os.patternKillOk
  afterTake

/-- Rust fn kill_server (src/src-tauri/src/lib.rs:279): run
kill_tachidesk and return Ok(()). -/
def kill_server (tracked : Option Nat) (os : KillOs) :
    Except Str Unit × Option Nat :=
  (.ok (), kill_tachidesk tracked os)

/-- Trace of a sequence of kill_server calls: for each OS outcome in the
list, the result returned by that call and the handle state after it. -/
def runKills : Option Nat → List KillOs → List (Except Str Unit × Option Nat)
  | _, [] => []
  | s, os :: rest =>
    let r := kill_server s os
    r :: runKills r.2 rest

/-- A mounted filesystem as sysinfo reports it: mount point path, total
and available space. -/
structure Disk where
  mount : Str
  total : Nat
  avail : Nat
  deriving DecidableEq

/-- Split a path at every slash. -/
def splitOnSlash : Str → List Str
  | [] => [[]]
  | c :: cs =>
    if c = '/' then [] :: splitOnSlash cs
    else
      match splitOnSlash cs with
      | [] => [[c]]
      | s :: rest => (c :: s) :: rest

/-- Components of a path in the sense of Rust Path::components, for the
paths this code compares: split at slashes, empty segments (leading
slash, duplicate and trailing slashes) dropped. -/
def pathComponents (p : Str) : List Str :=
  (splitOnSlash p).filter (fun s => !s.isEmpty)

/-- Whether a path is absolute (has a root component). -/
def isAbsPath (p : Str) : Bool :=
  match p with
  | '/' :: _ => true
  | _ => false

/-- Rust Path::starts_with: component-wise prefix test, the root
component included. -/
def pathStartsWith (path base : Str) : Bool :=
  (isAbsPath base == isAbsPath path) &&
    (pathComponents base).isPrefixOf (pathComponents path)

/-- One step of Rust Iterator::max_by_key on the mount-point string
length: a later disk replaces the accumulator when its key is at least as
large (max_by_key returns the last maximal element). -/
def maxDiskStep (acc : Option Disk) (d : Disk) : Option Disk :=
  match acc with
  | none => some d
  | some a => if a.mount.length ≤ d.mount.length then some d else some a

/-- Rust Iterator::max_by_key on the mount-point string length. -/
def maxByMountLen (disks : List Disk) : Option Disk :=
  disks.foldl maxDiskStep none

/-- The disk-selection step of Rust fn get_storage_info
(src/src-tauri/src/lib.rs:52): keep the disks whose mount point is a
path-prefix of the queried path, take the one with the longest mount
point string, and fail when no disk matches. -/
def selectDisk (disks : List Disk) (statPath : Str) : Except Str Disk :=
  match maxByMountLen (disks.filter (fun d => pathStartsWith statPath d.mount)) with
  | some d => .ok d
  | none => .error (str "Could not find disk for path")

/-! Machinery for reasoning about the lines model. -/

theorem splitOnNl_ne_nil (t : Str) : splitOnNl t ≠ [] := by
  match t with
  | [] => simp [splitOnNl]
  | c :: cs =>
    simp only [splitOnNl]
    split
    · simp
    · split <;> simp

theorem not_nl_of_mem_splitOnNl (t : Str) (l : Str) (hl : l ∈ splitOnNl t) :
    '\n' ∉ l := by
  induction t generalizing l with
  | nil => simp [splitOnNl] at hl; simp [hl]
  | cons c cs ih =>
    simp only [splitOnNl] at hl
    split at hl
    · rcases List.mem_cons.mp hl with h | h
      · simp [h]
      · exact ih l h
    · rename_i hc
      rcases h : splitOnNl cs with _ | ⟨s, rest⟩
      · exact absurd h (splitOnNl_ne_nil cs)
      · rw [h] at hl
        rcases List.mem_cons.mp hl with h2 | h2
        · subst h2
          intro hmem
          rcases List.mem_cons.mp hmem with h3 | h3
          · exact hc h3.symm
          · exact ih s (by rw [h]; exact List.mem_cons_self s rest) h3
        · exact ih l (by rw [h]; exact List.mem_cons_of_mem s h2)

theorem mem_of_mem_splitOnNl (t : Str) (l : Str) (hl : l ∈ splitOnNl t)
    (c : Char) (hc : c ∈ l) : c ∈ t := by
  induction t generalizing l with
  | nil => simp [splitOnNl] at hl; subst hl; simp at hc
  | cons d cs ih =>
    simp only [splitOnNl] at hl
    split at hl
    · rcases List.mem_cons.mp hl with h | h
      · subst h; simp at hc
      · exact List.mem_cons_of_mem d (ih l h hc)
    · rcases h : splitOnNl cs with _ | ⟨s, rest⟩
      · exact absurd h (splitOnNl_ne_nil cs)
      · rw [h] at hl
        rcases List.mem_cons.mp hl with h2 | h2
        · subst h2
          rcases List.mem_cons.mp hc with h3 | h3
          · exact h3 ▸ List.mem_cons_self d cs
          · exact List.mem_cons_of_mem d
              (ih s (by rw [h]; exact List.mem_cons_self s rest) h3)
        · exact List.mem_cons_of_mem d
            (ih l (by rw [h]; exact List.mem_cons_of_mem s h2) hc)

theorem splitOnNl_of_not_nl (t : Str) (h : '\n' ∉ t) : splitOnNl t = [t] := by
  induction t with
  | nil => rfl
  | cons c cs ih =>
    have hc : ¬ c = '\n' := fun hc => h (hc ▸ List.mem_cons_self c cs)
    have hcs : '\n' ∉ cs := fun hm => h (List.mem_cons_of_mem c hm)
    simp only [splitOnNl, if_neg hc, ih hcs]

/-- Merge two segment lists across an append boundary: the last segment of
the first text and the first segment of the second text fuse into one. -/
def glue : List Str → List Str → List Str
  | [], ys => ys
  | [x], ys =>
    match ys with
    | [] => [x]
    | y :: ys' => (x ++ y) :: ys'
  | x :: xs, ys => x :: glue xs ys

theorem glue_single_cons (x y : Str) (ys : List Str) :
    glue [x] (y :: ys) = (x ++ y) :: ys := rfl

theorem glue_cons₂ (x x2 : Str) (xs ys : List Str) :
    glue (x :: x2 :: xs) ys = x :: glue (x2 :: xs) ys := rfl

theorem glue_concat (xs : List Str) (x : Str) (ys : List Str) :
    glue (xs ++ [x]) ys = xs ++ glue [x] ys := by
  induction xs with
  | nil => simp
  | cons z zs ih =>
    have hne : zs ++ [x] ≠ [] := by simp
    rcases List.exists_cons_of_ne_nil hne with ⟨w, ws, hw⟩
    calc glue ((z :: zs) ++ [x]) ys = glue (z :: (zs ++ [x])) ys := by simp
      _ = z :: glue (zs ++ [x]) ys := by rw [hw]; exact glue_cons₂ z w ws ys
      _ = z :: (zs ++ glue [x] ys) := by rw [ih]
      _ = (z :: zs) ++ glue [x] ys := by simp

theorem splitOnNl_cons_nl (t : Str) : splitOnNl ('\n' :: t) = [] :: splitOnNl t := by
  simp [splitOnNl]

theorem splitOnNl_cons_other (c : Char) (t : Str) (hc : c ≠ '\n')
    (s : Str) (rest : List Str) (h : splitOnNl t = s :: rest) :
    splitOnNl (c :: t) = (c :: s) :: rest := by
  simp [splitOnNl, if_neg hc, h]

theorem splitOnNl_append (a b : Str) :
    splitOnNl (a ++ b) = glue (splitOnNl a) (splitOnNl b) := by
  induction a with
  | nil =>
    rcases List.exists_cons_of_ne_nil (splitOnNl_ne_nil b) with ⟨s, rest, h⟩
    simp [splitOnNl, h, glue_single_cons]
  | cons c cs ih =>
    by_cases hc : c = '\n'
    · subst hc
      rcases List.exists_cons_of_ne_nil (splitOnNl_ne_nil cs) with ⟨s, rest, h⟩
      rw [List.cons_append, splitOnNl_cons_nl, splitOnNl_cons_nl, ih, h, glue_cons₂]
    · rcases h : splitOnNl cs with _ | ⟨s, rest⟩
      · exact absurd h (splitOnNl_ne_nil cs)
      · rcases rest with _ | ⟨r, rs⟩
        · rcases hb : splitOnNl b with _ | ⟨u, us⟩
          · exact absurd hb (splitOnNl_ne_nil b)
          · have h1 : splitOnNl (cs ++ b) = (s ++ u) :: us := by
              rw [ih, h, hb, glue_single_cons]
            rw [List.cons_append, splitOnNl_cons_other c (cs ++ b) hc _ _ h1,
              splitOnNl_cons_other c cs hc _ _ h]
            simp [glue_single_cons]
        · have h1 : splitOnNl (cs ++ b) = s :: glue (r :: rs) (splitOnNl b) := by
            rw [ih, h, glue_cons₂]
          rw [List.cons_append, splitOnNl_cons_other c (cs ++ b) hc _ _ h1,
            splitOnNl_cons_other c cs hc _ _ h, glue_cons₂]

theorem splitOnNl_join (L : List Str) (hne : L ≠ [])
    (hnl : ∀ l ∈ L, '\n' ∉ l) : splitOnNl (joinNl L) = L := by
  induction L with
  | nil => exact absurd rfl hne
  | cons l ls ih =>
    rcases ls with _ | ⟨l2, ls'⟩
    · exact splitOnNl_of_not_nl l (hnl l (List.mem_cons_self l []))
    · have h1 : joinNl (l :: l2 :: ls') = l ++ '\n' :: joinNl (l2 :: ls') := rfl
      have h2 : splitOnNl (l ++ '\n' :: joinNl (l2 :: ls')) =
          glue (splitOnNl l) (splitOnNl ('\n' :: joinNl (l2 :: ls'))) :=
        splitOnNl_append l _
      have h3 : splitOnNl l = [l] :=
        splitOnNl_of_not_nl l (hnl l (List.mem_cons_self l _))
      have h4 : splitOnNl (joinNl (l2 :: ls')) = l2 :: ls' :=
        ih (by simp) (fun x hx => hnl x (List.mem_cons_of_mem l hx))
      rw [h1, h2, h3, splitOnNl_cons_nl, h4, glue_single_cons, List.append_nil]

theorem stripCr_of_not_cr (s : Str) (h : '\r' ∉ s) : stripCr s = s := by
  unfold stripCr
  split
  · rename_i hlast
    exact absurd (List.mem_of_mem_getLast? hlast) h
  · rfl

theorem stripCr_isPrefix (s : Str) : stripCr s <+: s := by
  unfold stripCr
  split
  · exact List.dropLast_prefix s
  · exact List.prefix_refl s

theorem not_mem_stripCr (s : Str) (c : Char) (h : c ∉ s) : c ∉ stripCr s :=
  fun hc => h ((stripCr_isPrefix s).subset hc)

theorem linesOf_concat_nil (xs : List Str) :
    linesOf (xs ++ [[]]) = xs.map stripCr := by
  induction xs with
  | nil => rfl
  | cons x xs ih =>
    rcases List.exists_cons_of_ne_nil (show xs ++ [([] : Str)] ≠ [] by simp)
      with ⟨w, ws, hw⟩
    calc linesOf ((x :: xs) ++ [[]]) = linesOf (x :: (xs ++ [[]])) := by simp
      _ = stripCr x :: linesOf (xs ++ [[]]) := by rw [hw]; rfl
      _ = stripCr x :: xs.map stripCr := by rw [ih]
      _ = (x :: xs).map stripCr := rfl

theorem linesOf_concat_ne (xs : List Str) (x : Str) (hx : x ≠ []) :
    linesOf (xs ++ [x]) = xs.map stripCr ++ [x] := by
  induction xs with
  | nil => simp [linesOf, hx]
  | cons z zs ih =>
    rcases List.exists_cons_of_ne_nil (show zs ++ [x] ≠ [] by simp)
      with ⟨w, ws, hw⟩
    calc linesOf ((z :: zs) ++ [x]) = linesOf (z :: (zs ++ [x])) := by simp
      _ = stripCr z :: linesOf (zs ++ [x]) := by rw [hw]; rfl
      _ = stripCr z :: (zs.map stripCr ++ [x]) := by rw [ih]
      _ = (z :: zs).map stripCr ++ [x] := by simp

theorem mem_linesOf_of_mem (M : List Str) (l : Str) (hl : l ∈ M)
    (hne : l ≠ []) (hcr : '\r' ∉ l) : l ∈ linesOf M := by
  induction M with
  | nil => simp at hl
  | cons s ls ih =>
    rcases ls with _ | ⟨s2, ls'⟩
    · simp at hl
      subst hl
      simp [linesOf, hne]
    · rcases List.mem_cons.mp hl with h | h
      · subst h
        rw [show linesOf (l :: s2 :: ls') = stripCr l :: linesOf (s2 :: ls') from rfl,
          stripCr_of_not_cr l hcr]
        exact List.mem_cons_self l _
      · exact List.mem_cons_of_mem _ (ih h)

theorem mem_linesOf (M : List Str) (l : Str) (hl : l ∈ linesOf M) :
    ∃ m ∈ M, l = stripCr m ∨ l = m := by
  induction M with
  | nil => simp [linesOf] at hl
  | cons s ls ih =>
    rcases ls with _ | ⟨s2, ls'⟩
    · rw [show linesOf [s] = if s = [] then [] else [s] from rfl] at hl
      split at hl
      · simp at hl
      · simp at hl
        exact ⟨s, List.mem_cons_self s [], Or.inr hl⟩
    · rw [show linesOf (s :: s2 :: ls') = stripCr s :: linesOf (s2 :: ls') from rfl] at hl
      rcases List.mem_cons.mp hl with h | h
      · exact ⟨s, List.mem_cons_self s _, Or.inl h⟩
      · rcases ih h with ⟨m, hm, hlm⟩
        exact ⟨m, List.mem_cons_of_mem s hm, hlm⟩

theorem linesOf_eq_self (M : List Str) (hcr : ∀ l ∈ M, '\r' ∉ l)
    (hlast : M.getLast? ≠ some []) : linesOf M = M := by
  induction M with
  | nil => rfl
  | cons s ls ih =>
    rcases ls with _ | ⟨s2, ls'⟩
    · have hs : s ≠ [] := by
        intro h
        exact hlast (by simp [h])
      simp [linesOf, hs]
    · rw [show linesOf (s :: s2 :: ls') = stripCr s :: linesOf (s2 :: ls') from rfl,
        stripCr_of_not_cr s (hcr s (List.mem_cons_self s _)),
        ih (fun l hl => hcr l (List.mem_cons_of_mem s hl))
          (by rwa [List.getLast?_cons_cons] at hlast)]

theorem mem_linesR_not_nl (t : Str) (l : Str) (hl : l ∈ linesR t) : '\n' ∉ l := by
  rcases mem_linesOf (splitOnNl t) l hl with ⟨m, hm, hcase⟩
  have hmnl : '\n' ∉ m := not_nl_of_mem_splitOnNl t m hm
  rcases hcase with h | h
  · exact h ▸ not_mem_stripCr m '\n' hmnl
  · exact h ▸ hmnl

theorem mem_linesR_subset (t : Str) (l : Str) (hl : l ∈ linesR t)
    (c : Char) (hc : c ∈ l) : c ∈ t := by
  rcases mem_linesOf (splitOnNl t) l hl with ⟨m, hm, hcase⟩
  have : c ∈ m := by
    rcases hcase with h | h
    · exact (stripCr_isPrefix m).subset (h ▸ hc)
    · exact h ▸ hc
  exact mem_of_mem_splitOnNl t m hm c this

theorem splitOnNl_single_nl : splitOnNl ['\n'] = [[], []] := rfl

theorem splitOnNl_of_endsNl (t : Str) (h : t.getLast? = some '\n') :
    ∃ S, splitOnNl t = S ++ [[]] := by
  have htne : t ≠ [] := by
    intro he
    rw [he] at h
    simp at h
  rcases List.eq_nil_or_concat t with he | ⟨a, c, hac⟩
  · exact absurd he htne
  · rw [List.concat_eq_append] at hac
    have hc : c = '\n' := by
      have := h
      rw [hac, List.getLast?_concat] at this
      exact (Option.some_injective _ this).symm ▸ rfl
    subst hc
    subst hac
    rcases List.eq_nil_or_concat (splitOnNl a) with he | ⟨S', x, hS⟩
    · exact absurd he (splitOnNl_ne_nil a)
    · rw [List.concat_eq_append] at hS
      refine ⟨S' ++ [x], ?_⟩
      rw [splitOnNl_append, splitOnNl_single_nl, hS, glue_concat,
        glue_single_cons, List.append_nil]
      simp

theorem splitOnNl_of_not_endsNl (t : Str) (htne : t ≠ [])
    (h : t.getLast? ≠ some '\n') :
    ∃ S x, splitOnNl t = S ++ [x] ∧ x ≠ [] := by
  rcases List.eq_nil_or_concat t with he | ⟨a, c, hac⟩
  · exact absurd he htne
  · rw [List.concat_eq_append] at hac
    have hc : c ≠ '\n' := by
      intro hcn
      exact h (by rw [hac, List.getLast?_concat, hcn])
    subst hac
    rcases List.eq_nil_or_concat (splitOnNl a) with he | ⟨S', x, hS⟩
    · exact absurd he (splitOnNl_ne_nil a)
    · rw [List.concat_eq_append] at hS
      refine ⟨S', x ++ [c], ?_, by simp⟩
      rw [splitOnNl_append,
        splitOnNl_of_not_nl [c] (by simpa using fun hcc => hc hcc.symm),
        hS, glue_concat, glue_single_cons]

theorem startsWithL_iff (s pat : Str) : startsWithL s pat = true ↔ pat <+: s := by
  induction pat generalizing s with
  | nil => simp [startsWithL]
  | cons k ks ih =>
    rcases s with _ | ⟨c, s'⟩
    · simp [startsWithL]
    · rw [show startsWithL (c :: s') (k :: ks) = ((c = k : Bool) && startsWithL s' ks)
        from rfl]
      simp only [Bool.and_eq_true, decide_eq_true_eq, ih, List.cons_prefix_cons]
      exact ⟨fun ⟨h1, h2⟩ => ⟨h1.symm, h2⟩, fun ⟨h1, h2⟩ => ⟨h1.symm, h2⟩⟩

theorem dropWhile_prefix_mono (p : Char → Bool) (s s' : Str) (h : s' <+: s) :
    s'.dropWhile p <+: s.dropWhile p := by
  induction s generalizing s' with
  | nil =>
    rw [List.prefix_nil.mp h]
  | cons c cs ih =>
    rcases s' with _ | ⟨c', cs'⟩
    · simp
    · rcases List.cons_prefix_cons.mp h with ⟨hc, hcs⟩
      subst hc
      rw [List.dropWhile_cons, List.dropWhile_cons]
      split
      · exact ih cs' hcs
      · exact List.cons_prefix_cons.mpr ⟨rfl, hcs⟩

theorem lineMatches_iff (key l : Str) :
    lineMatches key l = true ↔ key <+: trimStart l := by
  unfold lineMatches
  exact startsWithL_iff (trimStart l) key

theorem lineMatches_stripCr (key l : Str)
    (h : lineMatches key (stripCr l) = true) : lineMatches key l = true := by
  rw [lineMatches_iff] at h ⊢
  exact h.trans (dropWhile_prefix_mono isRustWs l (stripCr l) (stripCr_isPrefix l))

theorem lineMatches_stripCr_false (key l : Str)
    (h : lineMatches key l = false) : lineMatches key (stripCr l) = false := by
  by_contra hc
  rw [Bool.not_eq_false] at hc
  rw [lineMatches_stripCr key l hc] at h
  exact Bool.noConfusion h

theorem matches_exclusive (k k' : Str) (h1 : startsWithL k' k = false)
    (h2 : startsWithL k k' = false) :
    ∀ l, lineMatches k' l = true → lineMatches k l = false := by
  intro l h
  by_contra hc
  rw [Bool.not_eq_false, lineMatches_iff] at hc
  rw [lineMatches_iff] at h
  rcases List.prefix_or_prefix_of_prefix hc h with hp | hp
  · rw [(startsWithL_iff k' k).mpr hp] at h1
    exact Bool.noConfusion h1
  · rw [(startsWithL_iff k k').mpr hp] at h2
    exact Bool.noConfusion h2

theorem lineMatches_nil_false (key : Str) (hk : key ≠ []) :
    lineMatches key [] = false := by
  rcases key with _ | ⟨k, ks⟩
  · exact absurd rfl hk
  · rfl

theorem findIdx?_cons_zero (p : Str → Bool) (x : Str) (xs : List Str) :
    List.findIdx? p (x :: xs) =
      if p x then some 0 else (List.findIdx? p xs).map (· + 1) := by
  rw [List.findIdx?_cons, List.findIdx?_succ]

theorem findIdx?_spec (p : Str → Bool) (l : List Str) (j : Nat)
    (h : List.findIdx? p l = some j) :
    ∃ x, l[j]? = some x ∧ p x = true ∧
      ∀ i, i < j → ∀ y, l[i]? = some y → p y = false := by
  induction l generalizing j with
  | nil => simp [List.findIdx?] at h
  | cons x xs ih =>
    rw [findIdx?_cons_zero] at h
    split at h
    · rename_i hx
      have hj : j = 0 := by simpa using (Option.some_injective _ h.symm)
      subst hj
      exact ⟨x, by simp, hx, fun i hi => absurd hi (Nat.not_lt_zero i)⟩
    · rename_i hx
      rcases Option.map_eq_some'.mp h with ⟨j', hj', hjj⟩
      subst hjj
      rcases ih j' hj' with ⟨r, hr, hpr, hb⟩
      refine ⟨r, by simpa using hr, hpr, ?_⟩
      intro i hi y hy
      rcases i with _ | i'
      · simp at hy
        rw [← hy]
        exact Bool.not_eq_true _ ▸ (by simpa using hx)
      · exact hb i' (Nat.lt_of_succ_lt_succ hi) y (by simpa using hy)

theorem findIdx?_of_index (p : Str → Bool) (l : List Str) (j : Nat) (x : Str)
    (hj : l[j]? = some x) (hp : p x = true)
    (hb : ∀ i, i < j → ∀ y, l[i]? = some y → p y = false) :
    List.findIdx? p l = some j := by
  induction l generalizing j with
  | nil => simp at hj
  | cons z zs ih =>
    rcases j with _ | j'
    · simp at hj
      subst hj
      rw [findIdx?_cons_zero, if_pos hp]
    · have hz : p z = false := hb 0 (Nat.succ_pos j') z (by simp)
      rw [findIdx?_cons_zero, if_neg (by simp [hz]),
        ih j' (by simpa using hj)
          (fun i hi y hy => hb (i + 1) (Nat.succ_lt_succ hi) y (by simpa using hy))]
      rfl

theorem find?_of_index (p : Str → Bool) (l : List Str) (j : Nat) (r : Str)
    (hj : l[j]? = some r) (hp : p r = true)
    (hb : ∀ i, i < j → ∀ y, l[i]? = some y → p y = false) :
    List.find? p l = some r := by
  induction l generalizing j with
  | nil => simp at hj
  | cons z zs ih =>
    rcases j with _ | j'
    · simp at hj
      subst hj
      simp [List.find?_cons, hp]
    · have hz : p z = false := hb 0 (Nat.succ_pos j') z (by simp)
      rw [List.find?_cons]
      rw [hz]
      apply ih j'
      · simpa using hj
      · intro i hi y hy
        exact hb (i + 1) (Nat.succ_lt_succ hi) y (by simpa using hy)

theorem find?_spec (p : Str → Bool) (l : List Str) (r : Str)
    (h : List.find? p l = some r) :
    ∃ j : Nat, l[j]? = some r ∧ p r = true ∧
      ∀ i, i < j → ∀ y, l[i]? = some y → p y = false := by
  induction l with
  | nil => simp at h
  | cons z zs ih =>
    rw [List.find?_cons] at h
    rcases hz : p z with _ | _
    · rw [hz] at h
      rcases ih h with ⟨j, hj, hpr, hb⟩
      refine ⟨j + 1, by simpa using hj, hpr, ?_⟩
      intro i hi y hy
      rcases i with _ | i'
      · simp at hy
        rw [← hy]
        exact hz
      · exact hb i' (Nat.lt_of_succ_lt_succ hi) y (by simpa using hy)
    · rw [hz] at h
      simp at h
      subst h
      exact ⟨0, by simp, hz, fun i hi => absurd hi (Nat.not_lt_zero i)⟩

theorem find?_linesOf (p : Str → Bool) (M : List Str) (j : Nat) (r : Str)
    (hstab : ∀ l, p (stripCr l) = true → p l = true)
    (hrcr : '\r' ∉ r) (hrne : r ≠ []) (hpr : p r = true)
    (hj : M[j]? = some r)
    (hb : ∀ i, i < j → ∀ y, M[i]? = some y → p y = false) :
    (linesOf M).find? p = some r := by
  induction M generalizing j with
  | nil => simp at hj
  | cons s ls ih =>
    rcases ls with _ | ⟨s2, ls'⟩
    · rcases j with _ | j'
      · simp at hj
        subst hj
        simp [linesOf, hrne, List.find?_cons, hpr]
      · simp at hj
    · rw [show linesOf (s :: s2 :: ls') = stripCr s :: linesOf (s2 :: ls') from rfl]
      rcases j with _ | j'
      · simp at hj
        subst hj
        rw [stripCr_of_not_cr s hrcr]
        simp [List.find?_cons, hpr]
      · have hs : p s = false := hb 0 (Nat.succ_pos j') s (by simp)
        have hss : p (stripCr s) = false := by
          by_contra hc
          rw [Bool.not_eq_false] at hc
          rw [hstab s hc] at hs
          exact Bool.noConfusion hs
        rw [List.find?_cons, hss]
        exact ih j' (by simpa using hj)
          (fun i hi y hy => hb (i + 1) (Nat.succ_lt_succ hi) y (by simpa using hy))

theorem set_eq_self_of_getElem? (l : List Str) (n : Nat) (a : Str)
    (h : l[n]? = some a) : l.set n a = l := by
  induction l generalizing n with
  | nil => simp at h
  | cons z zs ih =>
    rcases n with _ | n'
    · simp at h
      simp [h]
    · simp at h
      simp [List.set_cons_succ, ih n' h]

theorem replLine_ne_nil (key value : Str) : replLine key value ≠ [] := by
  simp [replLine, str]

theorem not_mem_replLine (key value : Str) (c : Char)
    (hck : c ∉ key) (hcv : c ∉ value) (hcs : c ∉ str " = ") :
    c ∉ replLine key value := by
  intro h
  rcases List.mem_append.mp h with h1 | h1
  · rcases List.mem_append.mp h1 with h2 | h2
    · exact hck h2
    · exact hcs h2
  · exact hcv h1

theorem patch_found (t key value : Str) (pos : Nat)
    (h : (linesR t).findIdx? (fun l => lineMatches key l) = some pos) :
    patch_conf_key t key value =
      joinNl ((linesR t).set pos (replLine key value)) := by
  unfold patch_conf_key
  rw [h]

theorem patch_absent (t key value : Str)
    (h : (linesR t).findIdx? (fun l => lineMatches key l) = none) :
    patch_conf_key t key value =
      (if t.getLast? = some '\n' then t else t ++ ['\n']) ++
        replLine key value ++ ['\n'] := by
  unfold patch_conf_key
  rw [h]

theorem splitOnNl_line (r : Str) (hrnl : '\n' ∉ r) :
    splitOnNl (r ++ ['\n']) = [r, []] := by
  rw [splitOnNl_append, splitOnNl_of_not_nl r hrnl, splitOnNl_single_nl,
    glue_single_cons, List.append_nil]

theorem linesR_nl_append (r : Str) (hrnl : '\n' ∉ r) :
    linesR ('\n' :: (r ++ ['\n'])) = [[], stripCr r] := by
  unfold linesR
  rw [splitOnNl_cons_nl, splitOnNl_line r hrnl]
  simp [linesOf, stripCr]

theorem linesR_endsNl_append (t r : Str) (hend : t.getLast? = some '\n')
    (hrnl : '\n' ∉ r) :
    linesR (t ++ (r ++ ['\n'])) = linesR t ++ [stripCr r] := by
  rcases splitOnNl_of_endsNl t hend with ⟨S, hS⟩
  unfold linesR
  rw [splitOnNl_append, hS, splitOnNl_line r hrnl, glue_concat,
    glue_single_cons, List.nil_append,
    show S ++ [r, []] = (S ++ [r]) ++ [[]] by simp,
    linesOf_concat_nil, linesOf_concat_nil, List.map_append]
  rfl

theorem linesR_mid_append (t r : Str) (htne : t ≠ [])
    (hend : t.getLast? ≠ some '\n') (hrnl : '\n' ∉ r) :
    ∃ I x, linesR t = I ++ [x] ∧ x ≠ [] ∧
      (∀ l ∈ I, l ∈ linesR t) ∧
      linesR (t ++ ('\n' :: (r ++ ['\n']))) = I ++ [stripCr x, stripCr r] := by
  rcases splitOnNl_of_not_endsNl t htne hend with ⟨S, x, hS, hx⟩
  have hlt : linesR t = S.map stripCr ++ [x] := by
    unfold linesR
    rw [hS, linesOf_concat_ne S x hx]
  refine ⟨S.map stripCr, x, hlt, hx, ?_, ?_⟩
  · intro l hl
    rw [hlt]
    exact List.mem_append_left _ hl
  · unfold linesR
    rw [splitOnNl_append, hS, splitOnNl_cons_nl, splitOnNl_line r hrnl,
      glue_concat, glue_single_cons, List.append_nil,
      show S ++ (x :: [r, []]) = (S ++ [x, r]) ++ [[]] by simp,
      linesOf_concat_nil, List.map_append]
    rfl

theorem linesR_nil : linesR [] = [] := rfl

theorem linesR_joinNl (M : List Str) (hne : M ≠ [])
    (hnl : ∀ l ∈ M, '\n' ∉ l) : linesR (joinNl M) = linesOf M := by
  unfold linesR
  rw [splitOnNl_join M hne hnl]

/-- After patching a key, the first line matching that key is exactly the
replacement line, whatever the prior text was. -/
theorem find?_patch_self (t key value : Str)
    (hk : key ≠ []) (hknl : '\n' ∉ key) (hkcr : '\r' ∉ key)
    (hvnl : '\n' ∉ value) (hvcr : '\r' ∉ value)
    (hrepl : lineMatches key (replLine key value) = true) :
    (linesR (patch_conf_key t key value)).find? (fun l => lineMatches key l) =
      some (replLine key value) := by
  have hrnl : '\n' ∉ replLine key value :=
    not_mem_replLine key value '\n' hknl hvnl (by decide)
  have hrcr : '\r' ∉ replLine key value :=
    not_mem_replLine key value '\r' hkcr hvcr (by decide)
  have hstab : ∀ l, lineMatches key (stripCr l) = true →
      lineMatches key l = true := fun l => lineMatches_stripCr key l
  rcases hfi : (linesR t).findIdx? (fun l => lineMatches key l) with _ | pos
  · have hall : ∀ l ∈ linesR t, lineMatches key l = false :=
      fun l hl => List.findIdx?_eq_none_iff.mp hfi l hl
    rw [patch_absent t key value hfi]
    by_cases hend : t.getLast? = some '\n'
    · rw [if_pos hend, List.append_assoc, linesR_endsNl_append t _ hend hrnl,
        stripCr_of_not_cr _ hrcr]
      apply find?_of_index _ _ (linesR t).length _
        (List.getElem?_concat_length _ _) hrepl
      intro i hi y hy
      rw [List.getElem?_append, if_pos hi] at hy
      exact hall y (List.mem_iff_getElem?.mpr ⟨i, hy⟩)
    · by_cases htnil : t = []
      · subst htnil
        rw [if_neg hend,
          show (([] : Str) ++ ['\n']) ++ replLine key value ++ ['\n'] =
            '\n' :: (replLine key value ++ ['\n']) by simp,
          linesR_nl_append _ hrnl, stripCr_of_not_cr _ hrcr]
        simp [List.find?_cons, lineMatches_nil_false key hk, hrepl]
      · rcases linesR_mid_append t _ htnil hend hrnl with
          ⟨I, x, hlt, hxne, hImem, hres⟩
        rw [if_neg hend,
          show (t ++ ['\n']) ++ replLine key value ++ ['\n'] =
            t ++ ('\n' :: (replLine key value ++ ['\n'])) by simp,
          hres, stripCr_of_not_cr _ hrcr]
        have hxmem : x ∈ linesR t := by
          rw [hlt]
          simp
        apply find?_of_index _ _ (I.length + 1) _ ?_ hrepl ?_
        · rw [List.getElem?_append_right (by omega)]
          simp
        · intro i hi y hy
          by_cases hiI : i < I.length
          · rw [List.getElem?_append, if_pos hiI] at hy
            exact hall y (hImem y (List.mem_iff_getElem?.mpr ⟨i, hy⟩))
          · have hieq : i = I.length := by omega
            subst hieq
            rw [List.getElem?_append_right (Nat.le_refl _)] at hy
            simp at hy
            subst hy
            exact lineMatches_stripCr_false key x (hall x hxmem)
  · rcases findIdx?_spec _ _ _ hfi with ⟨xm, hxm, hpxm, hbefore⟩
    have hpos : pos < (linesR t).length := (List.getElem?_eq_some.mp hxm).1
    rw [patch_found t key value pos hfi]
    have hMne : (linesR t).set pos (replLine key value) ≠ [] := by
      intro hcon
      have hlen := congrArg List.length hcon
      rw [List.length_set, List.length_nil] at hlen
      omega
    have hMnl : ∀ l ∈ (linesR t).set pos (replLine key value), '\n' ∉ l := by
      intro l hl
      rcases List.mem_or_eq_of_mem_set hl with h | h
      · exact mem_linesR_not_nl t l h
      · exact h ▸ hrnl
    rw [linesR_joinNl _ hMne hMnl]
    apply find?_linesOf _ _ pos _ hstab hrcr (replLine_ne_nil key value) hrepl
    · exact List.getElem?_set_self hpos
    · intro i hi y hy
      rw [List.getElem?_set_ne (Nat.ne_of_gt hi)] at hy
      exact hbefore i hi y hy

/-- Patching one key does not disturb the first line found for another,
independent key. -/
theorem find?_patch_other (t key key2 value2 r : Str)
    (hfind : (linesR t).find? (fun l => lineMatches key l) = some r)
    (hrne : r ≠ []) (hrcr : '\r' ∉ r)
    (hk2nl : '\n' ∉ key2) (hv2nl : '\n' ∉ value2)
    (hindep : ∀ l, lineMatches key2 l = true → lineMatches key l = false)
    (hrepl2 : lineMatches key (replLine key2 value2) = false) :
    (linesR (patch_conf_key t key2 value2)).find? (fun l => lineMatches key l) =
      some r := by
  have hr2nl : '\n' ∉ replLine key2 value2 :=
    not_mem_replLine _ _ _ hk2nl hv2nl (by decide)
  have hstab : ∀ l, lineMatches key (stripCr l) = true →
      lineMatches key l = true := fun l => lineMatches_stripCr key l
  rcases find?_spec _ _ _ hfind with ⟨j, hj, hpr, hbefore⟩
  have hjlt : j < (linesR t).length := (List.getElem?_eq_some.mp hj).1
  rcases hfi : (linesR t).findIdx? (fun l => lineMatches key2 l) with _ | pos
  · rw [patch_absent t key2 value2 hfi]
    by_cases hend : t.getLast? = some '\n'
    · rw [if_pos hend, List.append_assoc, linesR_endsNl_append t _ hend hr2nl]
      apply find?_of_index _ _ j _ ?_ hpr ?_
      · rw [List.getElem?_append, if_pos hjlt]
        exact hj
      · intro i hi y hy
        rw [List.getElem?_append, if_pos (Nat.lt_trans hi hjlt)] at hy
        exact hbefore i hi y hy
    · by_cases htnil : t = []
      · subst htnil
        rw [linesR_nil] at hj
        simp at hj
      · rcases linesR_mid_append t _ htnil hend hr2nl with
          ⟨I, x, hlt, hxne, hImem, hres⟩
        rw [if_neg hend,
          show (t ++ ['\n']) ++ replLine key2 value2 ++ ['\n'] =
            t ++ ('\n' :: (replLine key2 value2 ++ ['\n'])) by simp,
          hres]
        have hlen : (linesR t).length = I.length + 1 := by
          rw [hlt]
          simp
        by_cases hjI : j < I.length
        · apply find?_of_index _ _ j _ ?_ hpr ?_
          · rw [List.getElem?_append, if_pos hjI]
            rw [hlt, List.getElem?_append, if_pos hjI] at hj
            exact hj
          · intro i hi y hy
            rw [List.getElem?_append, if_pos (Nat.lt_trans hi hjI)] at hy
            apply hbefore i hi y
            rw [hlt, List.getElem?_append, if_pos (Nat.lt_trans hi hjI)]
            exact hy
        · have hjeq : j = I.length := by omega
          subst hjeq
          have hxr : x = r := by
            rw [hlt, List.getElem?_append_right (Nat.le_refl _)] at hj
            simpa using hj
          apply find?_of_index _ _ I.length _ ?_ hpr ?_
          · rw [List.getElem?_append_right (Nat.le_refl _)]
            simp [hxr, stripCr_of_not_cr r hrcr]
          · intro i hi y hy
            rw [List.getElem?_append, if_pos hi] at hy
            apply hbefore i hi y
            rw [hlt, List.getElem?_append, if_pos hi]
            exact hy
  · rcases findIdx?_spec _ _ _ hfi with ⟨x2, hx2, hpx2, hbefore2⟩
    have hpos : pos < (linesR t).length := (List.getElem?_eq_some.mp hx2).1
    rw [patch_found t key2 value2 pos hfi]
    have hMne : (linesR t).set pos (replLine key2 value2) ≠ [] := by
      intro hcon
      have hlen := congrArg List.length hcon
      rw [List.length_set, List.length_nil] at hlen
      omega
    have hMnl : ∀ l ∈ (linesR t).set pos (replLine key2 value2), '\n' ∉ l := by
      intro l hl
      rcases List.mem_or_eq_of_mem_set hl with h | h
      · exact mem_linesR_not_nl t l h
      · exact h ▸ hr2nl
    rw [linesR_joinNl _ hMne hMnl]
    have hjne : pos ≠ j := by
      intro he
      subst he
      rw [hj] at hx2
      have hx2r : r = x2 := by simpa using hx2
      rw [← hx2r] at hpx2
      rw [hindep r hpx2] at hpr
      exact Bool.noConfusion hpr
    apply find?_linesOf _ _ j r hstab hrcr hrne hpr ?_ ?_
    · rw [List.getElem?_set_ne hjne]
      exact hj
    · intro i hi y hy
      by_cases hip : pos = i
      · subst hip
        rw [List.getElem?_set_self hpos] at hy
        have hyr : y = replLine key2 value2 := by simpa using hy.symm
        rw [hyr]
        exact hrepl2
      · rw [List.getElem?_set_ne hip] at hy
        exact hbefore i hi y hy

/-- A non-empty, carriage-return-free line that does not match the patched
key survives the patch. -/
theorem mem_lines_patch (t key value l : Str)
    (hl : l ∈ linesR t) (hlne : l ≠ []) (hlcr : '\r' ∉ l)
    (hmatch : lineMatches key l = false)
    (hknl : '\n' ∉ key) (hvnl : '\n' ∉ value) :
    l ∈ linesR (patch_conf_key t key value) := by
  have hrnl : '\n' ∉ replLine key value :=
    not_mem_replLine _ _ _ hknl hvnl (by decide)
  rcases hfi : (linesR t).findIdx? (fun l => lineMatches key l) with _ | pos
  · rw [patch_absent t key value hfi]
    by_cases hend : t.getLast? = some '\n'
    · rw [if_pos hend, List.append_assoc, linesR_endsNl_append t _ hend hrnl]
      exact List.mem_append_left _ hl
    · have htnil : t ≠ [] := by
        intro h
        subst h
        rw [linesR_nil] at hl
        exact absurd hl (List.not_mem_nil l)
      rcases linesR_mid_append t _ htnil hend hrnl with
        ⟨I, x, hlt, hxne, hImem, hres⟩
      rw [if_neg hend,
        show (t ++ ['\n']) ++ replLine key value ++ ['\n'] =
          t ++ ('\n' :: (replLine key value ++ ['\n'])) by simp,
        hres]
      rw [hlt] at hl
      rcases List.mem_append.mp hl with h | h
      · exact List.mem_append_left _ h
      · simp at h
        subst h
        refine List.mem_append_right _ ?_
        rw [stripCr_of_not_cr _ hlcr]
        exact List.mem_cons_self _ _
  · rcases findIdx?_spec _ _ _ hfi with ⟨x2, hx2, hpx2, _⟩
    have hpos : pos < (linesR t).length := (List.getElem?_eq_some.mp hx2).1
    rw [patch_found t key value pos hfi]
    have hMne : (linesR t).set pos (replLine key value) ≠ [] := by
      intro hcon
      have hlen := congrArg List.length hcon
      rw [List.length_set, List.length_nil] at hlen
      omega
    have hMnl : ∀ l ∈ (linesR t).set pos (replLine key value), '\n' ∉ l := by
      intro l hl
      rcases List.mem_or_eq_of_mem_set hl with h | h
      · exact mem_linesR_not_nl t l h
      · exact h ▸ hrnl
    rw [linesR_joinNl _ hMne hMnl]
    apply mem_linesOf_of_mem _ l ?_ hlne hlcr
    rcases List.mem_iff_getElem?.mp hl with ⟨i, hi⟩
    have hine : pos ≠ i := by
      intro he
      subst he
      rw [hi] at hx2
      have hx2l : l = x2 := by simpa using hx2
      rw [← hx2l, hmatch] at hpx2
      exact Bool.noConfusion hpx2
    exact List.mem_iff_getElem?.mpr ⟨i, by rw [List.getElem?_set_ne hine]; exact hi⟩

theorem kill_tachidesk_none (tracked : Option Nat) (os : KillOs) :
    kill_tachidesk tracked os = none := by
  cases tracked <;> rfl

theorem spawn_none_eq (b : Str) (conf : Option Str) (fs : SeedFs)
    (env : AppEnv) (os : SpawnOs) :
    spawn_server b none conf fs env os =
      match resolve_server_binary b env with
      | .error e => (.error e, none, seed_server_conf fs conf)
      | .ok _ =>
        match os.spawnResult with
        | .ok child => (.ok (), some child, seed_server_conf fs conf)
        | .error e => (.error e, none, seed_server_conf fs conf) := by
  unfold spawn_server
  cases resolve_server_binary b env
  · rfl
  · cases os.spawnResult <;> rfl

theorem foldl_maxDiskStep_some (l : List Disk) (a : Disk) :
    ∃ d, l.foldl maxDiskStep (some a) = some d ∧ (d = a ∨ d ∈ l) ∧
      a.mount.length ≤ d.mount.length ∧
      ∀ x ∈ l, x.mount.length ≤ d.mount.length := by
  induction l generalizing a with
  | nil => exact ⟨a, rfl, Or.inl rfl, Nat.le_refl _, by simp⟩
  | cons x xs ih =>
    rw [List.foldl_cons]
    by_cases hle : a.mount.length ≤ x.mount.length
    · rw [show maxDiskStep (some a) x = some x by simp [maxDiskStep, hle]]
      rcases ih x with ⟨d, hd, hmem, hxd, hall⟩
      refine ⟨d, hd, ?_, Nat.le_trans hle hxd, ?_⟩
      · rcases hmem with h | h
        · exact Or.inr (h ▸ List.mem_cons_self x xs)
        · exact Or.inr (List.mem_cons_of_mem x h)
      · intro y hy
        rcases List.mem_cons.mp hy with h | h
        · exact h ▸ hxd
        · exact hall y h
    · rw [show maxDiskStep (some a) x = some a by simp [maxDiskStep, hle]]
      rcases ih a with ⟨d, hd, hmem, had, hall⟩
      refine ⟨d, hd, ?_, had, ?_⟩
      · rcases hmem with h | h
        · exact Or.inl h
        · exact Or.inr (List.mem_cons_of_mem x h)
      · intro y hy
        rcases List.mem_cons.mp hy with h | h
        · subst h
          exact Nat.le_trans (Nat.le_of_lt (Nat.lt_of_not_le hle)) had
        · exact hall y h

theorem maxByMountLen_some (l : List Disk) (d : Disk)
    (h : maxByMountLen l = some d) :
    d ∈ l ∧ ∀ x ∈ l, x.mount.length ≤ d.mount.length := by
  rcases l with _ | ⟨x, xs⟩
  · simp [maxByMountLen] at h
  · unfold maxByMountLen at h
    rw [List.foldl_cons, show maxDiskStep none x = some x from rfl] at h
    rcases foldl_maxDiskStep_some xs x with ⟨d', hd', hmem, hxd, hall⟩
    rw [hd'] at h
    have hdd : d' = d := by simpa using h
    subst hdd
    constructor
    · rcases hmem with h | h
      · exact h ▸ List.mem_cons_self x xs
      · exact List.mem_cons_of_mem x h
    · intro y hy
      rcases List.mem_cons.mp hy with h | h
      · exact h ▸ hxd
      · exact hall y h

/-! Claim theorems. -/

/-- C1: if a child is already tracked, spawn_server returns success
immediately, leaving handle and configuration file untouched and ignoring
the resolution/launch environment entirely; consequently, when a spawn
from the empty state succeeds it stores a handle, and a second spawn made
while that handle is tracked is a no-op returning success, so exactly one
tracked handle results. -/
theorem spawn_already_tracked_noop (b b2 : Str) (c0 : Nat)
    (conf conf2 : Option Str) (fs fs2 : SeedFs) (env env2 : AppEnv)
    (os os2 : SpawnOs) :
    spawn_server b (some c0) conf fs env os = (Except.ok (), some c0, conf) ∧
    (∀ k : Nat, (spawn_server b2 none conf2 fs2 env2 os2).2.1 = some k →
      spawn_server b (some k) conf fs env os = (Except.ok (), some k, conf)) ∧
    ((spawn_server b2 none conf2 fs2 env2 os2).1 = Except.ok () →
      (spawn_server b2 none conf2 fs2 env2 os2).2.1 ≠ none) := by
  refine ⟨rfl, fun k _ => rfl, ?_⟩
  intro hok
  rw [spawn_none_eq] at hok ⊢
  cases hres : resolve_server_binary b2 env2 with
  | error e =>
    rw [hres] at hok
    exact absurd hok (by simp)
  | ok p =>
    rw [hres] at hok
    cases hos : os2.spawnResult with
    | error e =>
      rw [hos] at hok
      exact absurd hok (by simp)
    | ok k => simp

/-- C1 witness: a first spawn from the empty state that succeeds stores
handle 7, and a second spawn with handle 7 tracked is a no-op success. -/
theorem spawn_already_tracked_noop_witness :
    (spawn_server (str "/opt/suwayomi") none none ⟨true, true, true⟩
        ⟨Except.ok (str "/r"), fun _ => false⟩ ⟨Except.ok 7⟩).2.1 = some 7 ∧
    spawn_server (str "") (some 7) (some DEFAULT_SERVER_CONF) ⟨true, true, true⟩
        ⟨Except.error (str "gone"), fun _ => false⟩ ⟨Except.error (str "boom")⟩ =
      (Except.ok (), some 7, some DEFAULT_SERVER_CONF) := by
  have h := spawn_already_tracked_noop (str "") (str "/opt/suwayomi") 7
    (some DEFAULT_SERVER_CONF) none ⟨true, true, true⟩ ⟨true, true, true⟩
    ⟨Except.error (str "gone"), fun _ => false⟩
    ⟨Except.ok (str "/r"), fun _ => false⟩
    ⟨Except.error (str "boom")⟩ ⟨Except.ok 7⟩
  exact ⟨rfl, h.2.1 7 rfl⟩

/-- C2: every kill_server call in any sequence of calls returns success
and leaves the handle state empty, regardless of whether a child was
tracked and regardless of the outcomes of the underlying terminate
operations. -/
theorem kill_sequence_ok_and_empty (s : Option Nat) (oss : List KillOs)
    (entry : Except Str Unit × Option Nat) (h : entry ∈ runKills s oss) :
    entry = (Except.ok (), none) := by
  induction oss generalizing s with
  | nil => simp [runKills] at h
  | cons os rest ih =>
    rw [show runKills s (os :: rest) =
        kill_server s os :: runKills (kill_server s os).2 rest from rfl] at h
    rcases List.mem_cons.mp h with h | h
    · rw [h]
      show kill_server s os = (Except.ok (), none)
      unfold kill_server
      rw [kill_tachidesk_none]
    · exact ih _ h

/-- C2 witness: in a three-call kill sequence started with a tracked
child, where both terminate operations fail on the first call, every
entry of the trace is success with an empty handle. -/
theorem kill_sequence_ok_and_empty_witness :
    ((Except.ok (), none) : Except Str Unit × Option Nat) ∈
      runKills (some 5) [⟨false, false⟩, ⟨true, false⟩, ⟨false, true⟩] ∧
    ((Except.ok (), none) : Except Str Unit × Option Nat) =
      (Except.ok (), none) := by
  have hm : ((Except.ok (), none) : Except Str Unit × Option Nat) ∈
      runKills (some 5) [⟨false, false⟩, ⟨true, false⟩, ⟨false, true⟩] := by
    rw [show runKills (some 5) [⟨false, false⟩, ⟨true, false⟩, ⟨false, true⟩] =
      [(Except.ok (), none), (Except.ok (), none), (Except.ok (), none)] from rfl]
    simp
  exact ⟨hm, kill_sequence_ok_and_empty (some 5) _ _ hm⟩

/-- C4: when a spawn from the empty state fails, the returned error is
the binary-resolution error or the OS launch error, and no handle is
stored (the configuration file having been seeded either way). -/
theorem spawn_failure_handle_empty (b : Str) (conf : Option Str)
    (fs : SeedFs) (env : AppEnv) (os : SpawnOs) (e : Str)
    (h : (spawn_server b none conf fs env os).1 = Except.error e) :
    (spawn_server b none conf fs env os).2.1 = none ∧
    (spawn_server b none conf fs env os).2.2 = seed_server_conf fs conf ∧
    (resolve_server_binary b env = Except.error e ∨
      os.spawnResult = Except.error e) := by
  rw [spawn_none_eq] at h ⊢
  cases hres : resolve_server_binary b env with
  | error e' =>
    rw [hres] at h
    have he : e' = e := by simpa using h
    exact ⟨rfl, rfl, Or.inl (by rw [← he])⟩
  | ok p =>
    rw [hres] at h
    cases hos : os.spawnResult with
    | error e' =>
      rw [hos] at h
      have he : e' = e := by simpa using h
      exact ⟨rfl, rfl, Or.inr (by rw [← he])⟩
    | ok k =>
      rw [hos] at h
      exact absurd h (by simp)

/-- C4 witness: a spawn whose resource-directory lookup fails returns the
descriptive error and stores no handle. -/
theorem spawn_failure_handle_empty_witness :
    (spawn_server (str "") none none ⟨true, true, true⟩
        ⟨Except.error (str "E"), fun _ => false⟩ ⟨Except.ok 3⟩).2.1 = none ∧
    (resolve_server_binary (str "") ⟨Except.error (str "E"), fun _ => false⟩ =
        Except.error (str "Could not locate resource dir: E") ∨
      (⟨Except.ok 3⟩ : SpawnOs).spawnResult =
        Except.error (str "Could not locate resource dir: E")) := by
  have h := spawn_failure_handle_empty (str "") none ⟨true, true, true⟩
    ⟨Except.error (str "E"), fun _ => false⟩ ⟨Except.ok 3⟩
    (str "Could not locate resource dir: E") (by decide)
  exact ⟨h.1, h.2.2⟩

/-- C8: a non-empty, non-whitespace override string is returned verbatim
by resolve_server_binary, with no existence check on any file. -/
theorem resolve_override_verbatim (binary : Str) (env : AppEnv)
    (h : (trimRust binary).isEmpty = false) :
    resolve_server_binary binary env = Except.ok binary := by
  simp [resolve_server_binary, h]

/-- C8 witness: a path to no existing file (the environment reports no
file exists anywhere) is still returned unchanged. -/
theorem resolve_override_verbatim_witness :
    (trimRust (str "/no/such/file")).isEmpty = false ∧
    resolve_server_binary (str "/no/such/file")
        ⟨Except.ok (str "/r"), fun _ => false⟩ =
      Except.ok (str "/no/such/file") :=
  ⟨by decide, resolve_override_verbatim (str "/no/such/file")
    ⟨Except.ok (str "/r"), fun _ => false⟩ (by decide)⟩

/-- C9: the storage reporter selects, among the mounted filesystems whose
mount point is a path-prefix of the query path, one that is in the list,
matches, and has maximal mount-point string length; when no mount point
matches it fails with the descriptive error. -/
theorem storage_disk_selection (disks : List Disk) (p : Str) :
    (∀ d, selectDisk disks p = Except.ok d →
      d ∈ disks ∧ pathStartsWith p d.mount = true ∧
      ∀ x ∈ disks, pathStartsWith p x.mount = true →
        x.mount.length ≤ d.mount.length) ∧
    ((∀ x ∈ disks, pathStartsWith p x.mount = false) →
      selectDisk disks p = Except.error (str "Could not find disk for path")) := by
  constructor
  · intro d hd
    unfold selectDisk at hd
    rcases hm : maxByMountLen (disks.filter (fun d => pathStartsWith p d.mount))
      with _ | d'
    · rw [hm] at hd
      exact absurd hd (by simp)
    · rw [hm] at hd
      have hdd : d' = d := by simpa using hd
      subst hdd
      rcases maxByMountLen_some _ _ hm with ⟨hmem, hmax⟩
      rcases List.mem_filter.mp hmem with ⟨hmemd, hpd⟩
      refine ⟨hmemd, hpd, ?_⟩
      intro x hx hpx
      exact hmax x (List.mem_filter.mpr ⟨hx, hpx⟩)
  · intro hall
    unfold selectDisk
    have hfil : disks.filter (fun d => pathStartsWith p d.mount) = [] := by
      rw [List.filter_eq_nil_iff]
      intro a ha
      simp [hall a ha]
    rw [hfil]
    rfl

/-- C9 witness: with mount points / and /home, the query /home/user/data
selects /home (the longest matching mount string, / being shorter), and
with no disks the selection fails with the error. -/
theorem storage_disk_selection_witness :
    selectDisk [⟨str "/", 100, 50⟩, ⟨str "/home", 200, 80⟩]
        (str "/home/user/data") = Except.ok ⟨str "/home", 200, 80⟩ ∧
    pathStartsWith (str "/home/user/data") (str "/home") = true ∧
    pathStartsWith (str "/home/user/data") (str "/") = true ∧
    (str "/").length ≤ (str "/home").length ∧
    selectDisk [] (str "/home/user/data") =
      Except.error (str "Could not find disk for path") := by
  have hsel : selectDisk [⟨str "/", 100, 50⟩, ⟨str "/home", 200, 80⟩]
      (str "/home/user/data") = Except.ok ⟨str "/home", 200, 80⟩ := by decide
  rcases (storage_disk_selection [⟨str "/", 100, 50⟩, ⟨str "/home", 200, 80⟩]
      (str "/home/user/data")).1 ⟨str "/home", 200, 80⟩ hsel with ⟨_, hp, hmax⟩
  refine ⟨hsel, hp, by decide, ?_, ?_⟩
  · exact hmax ⟨str "/", 100, 50⟩ (by decide) (by decide)
  · exact (storage_disk_selection [] (str "/home/user/data")).2 (by simp)

/-- C10: spawn_server seeds the configuration before resolving the
binary, so a spawn whose binary resolution fails still returns an error
with no handle stored while the configuration file has been seeded; in
particular an absent file is created with the default template. -/
theorem spawn_failed_resolution_still_seeds (b : Str) (conf : Option Str)
    (fs : SeedFs) (env : AppEnv) (os : SpawnOs) (e : Str)
    (h : resolve_server_binary b env = Except.error e) :
    spawn_server b none conf fs env os =
      (Except.error e, none, seed_server_conf fs conf) ∧
    seed_server_conf ⟨true, true, true⟩ none = some DEFAULT_SERVER_CONF := by
  have heq := spawn_none_eq b conf fs env os
  rw [h] at heq
  exact ⟨heq, rfl⟩

/-- C10 witness: a spawn with a whitespace override and no bundled
candidate fails resolution, yet creates the absent configuration file
with the default template on disk. -/
theorem spawn_failed_resolution_still_seeds_witness :
    resolve_server_binary (str " ") ⟨Except.ok (str "/r"), fun _ => false⟩ =
      Except.error
        (str "Suwayomi server binary not found. Please set the path in Settings.") ∧
    spawn_server (str " ") none none ⟨true, true, true⟩
        ⟨Except.ok (str "/r"), fun _ => false⟩ ⟨Except.ok 3⟩ =
      (Except.error
        (str "Suwayomi server binary not found. Please set the path in Settings."),
        none, some DEFAULT_SERVER_CONF) ∧
    some DEFAULT_SERVER_CONF ≠ (none : Option Str) := by
  have hres : resolve_server_binary (str " ")
      ⟨Except.ok (str "/r"), fun _ => false⟩ =
      Except.error
        (str "Suwayomi server binary not found. Please set the path in Settings.") := by
    decide
  have h := spawn_failed_resolution_still_seeds (str " ") none ⟨true, true, true⟩
    ⟨Except.ok (str "/r"), fun _ => false⟩ ⟨Except.ok 3⟩ _ hres
  exact ⟨hres, h.1, by simp⟩

theorem getLast?_set_ne_nil (L : List Str) (n : Nat) (a : Str)
    (ha : a ≠ []) (hL : L.getLast? ≠ some []) :
    (L.set n a).getLast? ≠ some [] := by
  by_cases hn : n < L.length
  · have hlen : (L.set n a).length = L.length := List.length_set L n a
    rw [List.getLast?_eq_getElem?, hlen]
    by_cases he : n = L.length - 1
    · subst he
      rw [List.getElem?_set_self hn]
      intro hc
      exact ha (by simpa using hc.symm)
    · rw [List.getElem?_set_ne he]
      rw [List.getLast?_eq_getElem?] at hL
      exact hL
  · rw [List.set_eq_of_length_le (Nat.le_of_not_lt hn)]
    exact hL

/-- On a carriage-return-free text that does not end with an empty line,
patching a matched key rewrites exactly the matched line. -/
theorem linesR_patch_found_clean (t key value : Str) (pos : Nat)
    (hfound : (linesR t).findIdx? (fun l => lineMatches key l) = some pos)
    (hknl : '\n' ∉ key) (hkcr : '\r' ∉ key)
    (hvnl : '\n' ∉ value) (hvcr : '\r' ∉ value)
    (htcr : '\r' ∉ t) (hlast : (linesR t).getLast? ≠ some []) :
    linesR (patch_conf_key t key value) =
      (linesR t).set pos (replLine key value) := by
  rcases findIdx?_spec _ _ _ hfound with ⟨xm, hxm, hpxm, hbefore⟩
  have hpos : pos < (linesR t).length := (List.getElem?_eq_some.mp hxm).1
  have hrnl : '\n' ∉ replLine key value :=
    not_mem_replLine _ _ _ hknl hvnl (by decide)
  have hrcr : '\r' ∉ replLine key value :=
    not_mem_replLine _ _ _ hkcr hvcr (by decide)
  have hMne : (linesR t).set pos (replLine key value) ≠ [] := by
    intro hcon
    have hlen := congrArg List.length hcon
    rw [List.length_set, List.length_nil] at hlen
    omega
  have hMnl : ∀ l ∈ (linesR t).set pos (replLine key value), '\n' ∉ l := by
    intro l hl
    rcases List.mem_or_eq_of_mem_set hl with h | h
    · exact mem_linesR_not_nl t l h
    · exact h ▸ hrnl
  have hMcr : ∀ l ∈ (linesR t).set pos (replLine key value), '\r' ∉ l := by
    intro l hl
    rcases List.mem_or_eq_of_mem_set hl with h | h
    · exact fun hc => htcr (mem_linesR_subset t l h '\r' hc)
    · exact h ▸ hrcr
  rw [patch_found t key value pos hfound, linesR_joinNl _ hMne hMnl,
    linesOf_eq_self _ hMcr
      (getLast?_set_ne_nil _ _ _ (replLine_ne_nil key value) hlast)]

/-- C5 (amended): patch_conf_key is idempotent on texts that already
contain a line matching the key, provided the text is free of carriage
returns and does not end with an empty line, and key and value contain no
line break or carriage return (the key matching its own replacement
line).  On the append path idempotence fails: the second application
drops the trailing newline the first appended (see the counterexample). -/
theorem patch_idempotent_on_matching (t key value : Str) (pos : Nat)
    (hfound : (linesR t).findIdx? (fun l => lineMatches key l) = some pos)
    (hknl : '\n' ∉ key) (hkcr : '\r' ∉ key)
    (hvnl : '\n' ∉ value) (hvcr : '\r' ∉ value)
    (htcr : '\r' ∉ t) (hlast : (linesR t).getLast? ≠ some [])
    (hrepl : lineMatches key (replLine key value) = true) :
    patch_conf_key (patch_conf_key t key value) key value =
      patch_conf_key t key value := by
  rcases findIdx?_spec _ _ _ hfound with ⟨xm, hxm, hpxm, hbefore⟩
  have hpos : pos < (linesR t).length := (List.getElem?_eq_some.mp hxm).1
  have hlines1 := linesR_patch_found_clean t key value pos hfound hknl hkcr
    hvnl hvcr htcr hlast
  have hfi2 : (linesR (patch_conf_key t key value)).findIdx?
      (fun l => lineMatches key l) = some pos := by
    rw [hlines1]
    apply findIdx?_of_index _ _ pos (replLine key value)
      (List.getElem?_set_self hpos) hrepl
    intro i hi y hy
    rw [List.getElem?_set_ne (Nat.ne_of_gt hi)] at hy
    exact hbefore i hi y hy
  rw [patch_found _ key value pos hfi2, hlines1,
    set_eq_self_of_getElem? _ _ _ (List.getElem?_set_self hpos),
    patch_found t key value pos hfound]

/-- C5 counterexample: patch_conf_key is not idempotent as universally
claimed.  On the text a with key b the first application appends and
yields a, newline, b = v, newline; the second application takes the
replace path, rejoins the lines and drops the trailing newline, yielding
a different text. -/
theorem patch_not_idempotent_on_append :
    patch_conf_key (str "a") (str "b") (str "v") = str "a\nb = v\n" ∧
    patch_conf_key (patch_conf_key (str "a") (str "b") (str "v"))
        (str "b") (str "v") = str "a\nb = v" ∧
    patch_conf_key (patch_conf_key (str "a") (str "b") (str "v"))
        (str "b") (str "v") ≠
      patch_conf_key (str "a") (str "b") (str "v") := by
  refine ⟨by decide, by decide, by decide⟩

/-- C5 witness: on a text that already contains a matching line, patching
twice equals patching once. -/
theorem patch_idempotent_on_matching_witness :
    patch_conf_key (patch_conf_key (str "foo = true") (str "foo")
        (str "false")) (str "foo") (str "false") =
      patch_conf_key (str "foo = true") (str "foo") (str "false") :=
  patch_idempotent_on_matching (str "foo = true") (str "foo") (str "false") 0
    (by decide) (by decide) (by decide) (by decide) (by decide) (by decide)
    (by decide) (by decide)

/-- C6 (amended): on a carriage-return-free text that does not end with
an empty line, patching a key whose first match is at index pos replaces
exactly that line with the replacement line and leaves the line count
unchanged.  When the text ends with an empty line the rejoin drops that
line and the count shrinks (see the counterexample). -/
theorem patch_replaces_first_matching_line (t key value : Str) (pos : Nat)
    (hfound : (linesR t).findIdx? (fun l => lineMatches key l) = some pos)
    (hknl : '\n' ∉ key) (hkcr : '\r' ∉ key)
    (hvnl : '\n' ∉ value) (hvcr : '\r' ∉ value)
    (htcr : '\r' ∉ t) (hlast : (linesR t).getLast? ≠ some []) :
    linesR (patch_conf_key t key value) =
      (linesR t).set pos (replLine key value) ∧
    (linesR (patch_conf_key t key value)).length = (linesR t).length := by
  have h := linesR_patch_found_clean t key value pos hfound hknl hkcr hvnl
    hvcr htcr hlast
  exact ⟨h, by rw [h, List.length_set]⟩

/-- C6 counterexample: on a text ending with an empty line the line count
is not preserved: the two-line text foo = true plus an empty line patches
to a one-line text. -/
theorem patch_changes_line_count_on_trailing_empty_line :
    (linesR (str "foo = true\n\n")).length = 2 ∧
    (linesR (patch_conf_key (str "foo = true\n\n") (str "foo")
      (str "false"))).length = 1 ∧
    (linesR (patch_conf_key (str "foo = true\n\n") (str "foo")
        (str "false"))).length ≠ (linesR (str "foo = true\n\n")).length := by
  refine ⟨by decide, by decide, by decide⟩

/-- C6 witness: patching foo = true to false in a two-line text rewrites
that line in place and keeps both lines. -/
theorem patch_replaces_first_matching_line_witness :
    linesR (patch_conf_key (str "foo = true\nbar = 1") (str "foo")
        (str "false")) = [str "foo = false", str "bar = 1"] ∧
    (linesR (patch_conf_key (str "foo = true\nbar = 1") (str "foo")
        (str "false"))).length = (linesR (str "foo = true\nbar = 1")).length := by
  have h := patch_replaces_first_matching_line (str "foo = true\nbar = 1")
    (str "foo") (str "false") 0 (by decide) (by decide) (by decide)
    (by decide) (by decide) (by decide) (by decide)
  exact ⟨h.1.trans (by decide), h.2⟩

/-- C7 (amended): on a non-empty, carriage-return-free text containing no
line matching the key (key and value free of line breaks and carriage
returns), patch_conf_key first ensures the text ends with a newline, then
appends the single line key = value followed by a newline; the resulting
lines are exactly the prior lines followed by the new line.  On the empty
text the guaranteed line terminator itself creates an additional empty
line (see the counterexample). -/
theorem patch_appends_when_absent (t key value : Str)
    (habsent : (linesR t).findIdx? (fun l => lineMatches key l) = none)
    (htne : t ≠ []) (htcr : '\r' ∉ t)
    (hknl : '\n' ∉ key) (hkcr : '\r' ∉ key)
    (hvnl : '\n' ∉ value) (hvcr : '\r' ∉ value) :
    patch_conf_key t key value =
      (if t.getLast? = some '\n' then t else t ++ ['\n']) ++
        replLine key value ++ ['\n'] ∧
    linesR (patch_conf_key t key value) =
      linesR t ++ [replLine key value] := by
  have hrnl : '\n' ∉ replLine key value :=
    not_mem_replLine _ _ _ hknl hvnl (by decide)
  have hrcr : '\r' ∉ replLine key value :=
    not_mem_replLine _ _ _ hkcr hvcr (by decide)
  refine ⟨patch_absent t key value habsent, ?_⟩
  rw [patch_absent t key value habsent]
  by_cases hend : t.getLast? = some '\n'
  · rw [if_pos hend, List.append_assoc, linesR_endsNl_append t _ hend hrnl,
      stripCr_of_not_cr _ hrcr]
  · rcases linesR_mid_append t _ htne hend hrnl with
      ⟨I, x, hlt, hxne, hImem, hres⟩
    have hxcr : '\r' ∉ x := by
      intro hc
      exact htcr (mem_linesR_subset t x (by rw [hlt]; simp) '\r' hc)
    rw [if_neg hend,
      show (t ++ ['\n']) ++ replLine key value ++ ['\n'] =
        t ++ ('\n' :: (replLine key value ++ ['\n'])) by simp,
      hres, stripCr_of_not_cr _ hrcr, stripCr_of_not_cr x hxcr, hlt]
    simp

/-- C7 counterexample: appending to the empty text does not merely append
one line: the terminator pushed first creates an empty line, so the
result has two lines where the claim predicts one. -/
theorem patch_on_empty_text_prepends_empty_line :
    linesR (patch_conf_key (str "") (str "b") (str "v")) =
      [[], str "b = v"] ∧
    linesR (str "") ++ [replLine (str "b") (str "v")] = [str "b = v"] ∧
    linesR (patch_conf_key (str "") (str "b") (str "v")) ≠
      linesR (str "") ++ [replLine (str "b") (str "v")] := by
  refine ⟨by decide, by decide, by decide⟩

/-- C7 witness: appending a missing key to a one-line text adds the
terminator and exactly the one new line. -/
theorem patch_appends_when_absent_witness :
    patch_conf_key (str "bar = 1") (str "foo") (str "false") =
      str "bar = 1\nfoo = false\n" ∧
    linesR (patch_conf_key (str "bar = 1") (str "foo") (str "false")) =
      linesR (str "bar = 1") ++ [replLine (str "foo") (str "false")] := by
  have h := patch_appends_when_absent (str "bar = 1") (str "foo")
    (str "false") (by decide) (by decide) (by decide) (by decide)
    (by decide) (by decide) (by decide)
  exact ⟨h.1.trans (by decide), h.2⟩

/-- C3 (amended): after the seeder runs with its filesystem calls
succeeding, the configuration file exists and, for each of the three
safety keys, the first line matching it is exactly key = false, whatever
the prior content (absent file: the default template; existing file:
patched).  Every existing line that is non-empty, free of carriage
returns, and does not begin (after trimming leading whitespace) with one
of the three safety keys is still present.  A line whose key merely
extends a safety key (for instance server.webUIEnabledCustom) matches the
prefix test and is rewritten, so such unrelated keys are not preserved
(see the counterexample). -/
theorem seeder_enforces_safety_keys (fs : SeedFs) (conf : Option Str)
    (h1 : fs.createDirOk = true) (h2 : fs.writeOk = true)
    (h3 : fs.readOk = true) :
    ∃ t : Str, seed_server_conf fs conf = some t ∧
      (linesR t).find? (fun l => lineMatches keyWebUI l) =
        some (replLine keyWebUI (str "false")) ∧
      (linesR t).find? (fun l => lineMatches keyOpenInBrowser l) =
        some (replLine keyOpenInBrowser (str "false")) ∧
      (linesR t).find? (fun l => lineMatches keySystemTray l) =
        some (replLine keySystemTray (str "false")) ∧
      (∀ prior, conf = some prior → ∀ l ∈ linesR prior, l ≠ [] →
        '\r' ∉ l → lineMatches keyWebUI l = false →
        lineMatches keyOpenInBrowser l = false →
        lineMatches keySystemTray l = false → l ∈ linesR t) := by
  rcases conf with _ | c
  · refine ⟨DEFAULT_SERVER_CONF, ?_, ?_, ?_, ?_, ?_⟩
    · simp [seed_server_conf, h1, h2]
    · decide
    · decide
    · decide
    · intro prior hp
      exact absurd hp (by simp)
  · have hseed : seed_server_conf fs (some c) =
        some (patch_conf_key (patch_conf_key (patch_conf_key c keyWebUI
          (str "false")) keyOpenInBrowser (str "false")) keySystemTray
          (str "false")) := by
      simp [seed_server_conf, h2, h3]
    have hind21 : ∀ l, lineMatches keyOpenInBrowser l = true →
        lineMatches keyWebUI l = false :=
      matches_exclusive keyWebUI keyOpenInBrowser (by decide) (by decide)
    have hind31 : ∀ l, lineMatches keySystemTray l = true →
        lineMatches keyWebUI l = false :=
      matches_exclusive keyWebUI keySystemTray (by decide) (by decide)
    have hind32 : ∀ l, lineMatches keySystemTray l = true →
        lineMatches keyOpenInBrowser l = false :=
      matches_exclusive keyOpenInBrowser keySystemTray (by decide) (by decide)
    have hA1 := find?_patch_self c keyWebUI (str "false") (by decide)
      (by decide) (by decide) (by decide) (by decide) (by decide)
    have hB1 := find?_patch_other (patch_conf_key c keyWebUI (str "false"))
      keyWebUI keyOpenInBrowser (str "false") _ hA1 (by decide) (by decide)
      (by decide) (by decide) hind21 (by decide)
    have hC1 := find?_patch_other (patch_conf_key (patch_conf_key c keyWebUI
      (str "false")) keyOpenInBrowser (str "false")) keyWebUI keySystemTray
      (str "false") _ hB1 (by decide) (by decide) (by decide) (by decide)
      hind31 (by decide)
    have hA2 := find?_patch_self (patch_conf_key c keyWebUI (str "false"))
      keyOpenInBrowser (str "false") (by decide) (by decide) (by decide)
      (by decide) (by decide) (by decide)
    have hB2 := find?_patch_other (patch_conf_key (patch_conf_key c keyWebUI
      (str "false")) keyOpenInBrowser (str "false")) keyOpenInBrowser
      keySystemTray (str "false") _ hA2 (by decide) (by decide) (by decide)
      (by decide) hind32 (by decide)
    have hA3 := find?_patch_self (patch_conf_key (patch_conf_key c keyWebUI
      (str "false")) keyOpenInBrowser (str "false")) keySystemTray
      (str "false") (by decide) (by decide) (by decide) (by decide)
      (by decide) (by decide)
    refine ⟨_, hseed, hC1, hB2, hA3, ?_⟩
    intro prior hp l hl hlne hlcr hm1 hm2 hm3
    have hpc : c = prior := Option.some_injective _ hp
    rw [← hpc] at hl
    exact mem_lines_patch _ keySystemTray (str "false") l
      (mem_lines_patch _ keyOpenInBrowser (str "false") l
        (mem_lines_patch c keyWebUI (str "false") l hl hlne hlcr hm1
          (by decide) (by decide))
        hlne hlcr hm2 (by decide) (by decide))
      hlne hlcr hm3 (by decide) (by decide)

/-- C3 counterexample: an existing key that is unrelated to the three
safety keys but extends one of them as a string is not preserved: on the
one-line file server.webUIEnabledCustom = 7 the seeder rewrites that line
(the patch matches by line prefix), so the key vanishes from the result. -/
theorem seeder_clobbers_unrelated_extension_key :
    seed_server_conf ⟨true, true, true⟩
        (some (str "server.webUIEnabledCustom = 7")) =
      some (str "server.webUIEnabled = false\nserver.initialOpenInBrowserEnabled = false\nserver.systemTrayEnabled = false\n") ∧
    str "server.webUIEnabledCustom = 7" ∈
      linesR (str "server.webUIEnabledCustom = 7") ∧
    str "server.webUIEnabledCustom" ≠ keyWebUI ∧
    str "server.webUIEnabledCustom" ≠ keyOpenInBrowser ∧
    str "server.webUIEnabledCustom" ≠ keySystemTray ∧
    str "server.webUIEnabledCustom = 7" ∉
      linesR (str "server.webUIEnabled = false\nserver.initialOpenInBrowserEnabled = false\nserver.systemTrayEnabled = false\n") := by
  refine ⟨by decide, by decide, by decide, by decide, by decide, by decide⟩

/-- C3 witness: seeding an existing file that sets server.webUIEnabled to
true and holds an unrelated key rewrites the safety key to false and
keeps the unrelated line. -/
theorem seeder_enforces_safety_keys_witness :
    seed_server_conf ⟨true, true, true⟩
        (some (str "other.key = 1\nserver.webUIEnabled = true")) =
      some (str "other.key = 1\nserver.webUIEnabled = false\nserver.initialOpenInBrowserEnabled = false\nserver.systemTrayEnabled = false\n") ∧
    (linesR (str "other.key = 1\nserver.webUIEnabled = false\nserver.initialOpenInBrowserEnabled = false\nserver.systemTrayEnabled = false\n")).find?
        (fun l => lineMatches keyWebUI l) =
      some (replLine keyWebUI (str "false")) ∧
    str "other.key = 1" ∈
      linesR (str "other.key = 1\nserver.webUIEnabled = false\nserver.initialOpenInBrowserEnabled = false\nserver.systemTrayEnabled = false\n") := by
  rcases seeder_enforces_safety_keys ⟨true, true, true⟩
      (some (str "other.key = 1\nserver.webUIEnabled = true")) rfl rfl rfl
    with ⟨t, hseed, hk1, _hk2, _hk3, hpres⟩
  have hT : seed_server_conf ⟨true, true, true⟩
      (some (str "other.key = 1\nserver.webUIEnabled = true")) =
      some (str "other.key = 1\nserver.webUIEnabled = false\nserver.initialOpenInBrowserEnabled = false\nserver.systemTrayEnabled = false\n") := by
    decide
  have ht : t = str "other.key = 1\nserver.webUIEnabled = false\nserver.initialOpenInBrowserEnabled = false\nserver.systemTrayEnabled = false\n" := by
    rw [hseed] at hT
    exact Option.some_injective _ hT
  refine ⟨hT, ht ▸ hk1, ht ▸ ?_⟩
  exact hpres _ rfl (str "other.key = 1") (by decide) (by decide) (by decide)
    (by decide) (by decide) (by decide)
